import Mathlib

/-!
Shallow embedding of `src/abitset_expandable.c` from contactandyc/a-bitset-library.

The C module implements an expandable bitset as a directory (`pages`) of
nullable pointers to 4KB pages of 512 `uint64_t` words.  We embed:

* a page as a function `Nat → Nat` (word index ↦ 64-bit word value; a freshly
  `aml_zalloc`ed page is the constant-zero function),
* the directory as a function `Nat → Option Page` together with the explicit
  capacity `page_count` (a `memcpy` of the live prefix into a zeroed larger
  array is modelled by masking the function to `none` beyond the old capacity),
* all `uint32_t` arithmetic with explicit `% 4294967296` wherever the C
  expression can wrap, and `uint64_t` bit operations on `Nat` (all word values
  constructed by the code stay below `2 ^ 64`).

Fallible or unbounded C constructs are modelled as follows: the two `while`
loops (directory doubling, popcount) carry an explicit iteration bound that is
provably never reached on the values the C code can produce, and an
out-of-bounds `memcpy`/array write (undefined behaviour in C) becomes a dropped
`List.set`.
-/

set_option maxRecDepth 100000

/-- 2^32, the modulus of `uint32_t` arithmetic. -/
def U32 : Nat := 4294967296

/-- 2^64, the modulus of `uint64_t` arithmetic. -/
def U64 : Nat := 18446744073709551616

/-- PAGE_SIZE from `abitset_expandable.c` line 5: 4KB page size, in bytes. -/
def PAGE_SIZE : Nat := 4096

/-- PAGE_ENTRIES from line 6: number of 64-bit words in a page (4096 / 8). -/
def PAGE_ENTRIES : Nat := 512

/-- INITIAL_PAGES from line 7: initial number of page pointers. -/
def INITIAL_PAGES : Nat := 2048

/-- A 4KB page: word index (0..511) ↦ 64-bit word value.  `aml_zalloc` yields
the constant-zero function. -/
abbrev Page : Type := Nat → Nat

/-- `struct abitset_expandable_s` (lines 10-15): directory of optional pages,
its capacity, the advisory `size` field, and `max_bit`. -/
structure abitset_expandable_s where
  pages : Nat → Option Page
  page_count : Nat
  size : Nat
  max_bit : Nat

/-- `abitset_expandable_init` (lines 18-25): empty directory of INITIAL_PAGES
null pointers, `size = 0`, `max_bit = 0`. -/
def abitset_expandable_init : abitset_expandable_s :=
  { pages := fun _ => none
    page_count := INITIAL_PAGES
    size := 0
    max_bit := 0 }

/-- The doubling loop of `abitset_expandable_expand` (lines 46-49):
`while (required_page >= new_page_count) new_page_count <<= 1;`.
The first argument bounds the number of iterations; with fuel `rp + 1` the
bound is never reached when `pc ≥ 1` (the capacity at least doubles per step,
and the C code always starts from `page_count ≥ INITIAL_PAGES`), so the
fuel-exhausted branch is dead on every state the code constructs. -/
def growAux : Nat → Nat → Nat → Nat
  | 0, pc, _ => pc
  | fuel + 1, pc, rp => if rp < pc then pc else growAux fuel (2 * pc) rp

/-- `abitset_expandable_expand` (lines 38-67).  Faithful translation:
`required_page = id >> 18`; raise `max_bit`; double the directory while
needed (the `memcpy` into a zeroed larger array is the masked function);
allocate the zero page if absent; update `size` with the `uint32_t` value
`(required_page + 1) << 18`. -/
def abitset_expandable_expand (h : abitset_expandable_s) (id : Nat) :
    abitset_expandable_s :=
  let required_page := id >>> 18
  let max_bit' := if h.max_bit < id then id else h.max_bit
  let pc' :=
    if h.page_count ≤ required_page then
      growAux (required_page + 1) h.page_count required_page
    else h.page_count
  let pages' : Nat → Option Page :=
    if h.page_count ≤ required_page then
      fun i => if i < h.page_count then h.pages i else none
    else h.pages
  let pages'' : Nat → Option Page :=
    match pages' required_page with
    | none => fun i => if i = required_page then some (fun _ => 0) else pages' i
    | some _ => pages'
  let new_size := ((required_page + 1) <<< 18) % U32
  { pages := pages''
    page_count := pc'
    size := if h.size < new_size then new_size else h.size
    max_bit := max_bit' }

/-- `abitset_expandable_set` (lines 70-76): expand, then OR the single-bit mask
into the addressed word.  `expand` always allocates the target page, so the
`none` branch (a null dereference in C) is dead. -/
def abitset_expandable_set (h0 : abitset_expandable_s) (id : Nat) :
    abitset_expandable_s :=
  let h := abitset_expandable_expand h0 id
  let page := id >>> 18
  let offset := (id >>> 6) &&& (PAGE_ENTRIES - 1)
  let bit := id &&& 63
  match h.pages page with
  | none => h
  | some pg =>
      { h with
        pages := fun i =>
          if i = page then
            some (fun j => if j = offset then pg j ||| (1 <<< bit) else pg j)
          else h.pages i }

/-- `abitset_expandable_unset` (lines 79-85): expand, then AND the addressed
word with the complement mask `~(1ULL << bit)`, i.e. `2^64 - 1 - 2^bit`. -/
def abitset_expandable_unset (h0 : abitset_expandable_s) (id : Nat) :
    abitset_expandable_s :=
  let h := abitset_expandable_expand h0 id
  let page := id >>> 18
  let offset := (id >>> 6) &&& (PAGE_ENTRIES - 1)
  let bit := id &&& 63
  match h.pages page with
  | none => h
  | some pg =>
      { h with
        pages := fun i =>
          if i = page then
            some (fun j =>
              if j = offset then pg j &&& (U64 - 1 - (1 <<< bit)) else pg j)
          else h.pages i }

/-- `abitset_expandable_enabled` (lines 88-95): the read-only query.  Returns
false when `id >= max_bit`, when the page index is out of directory capacity,
or when the page is unallocated; otherwise tests the addressed bit. -/
def abitset_expandable_enabled (h : abitset_expandable_s) (id : Nat) : Bool :=
  if h.max_bit ≤ id then false
  else
    let page := id >>> 18
    if h.page_count ≤ page then false
    else
      match h.pages page with
      | none => false
      | some pg =>
          decide (pg ((id >>> 6) &&& (PAGE_ENTRIES - 1)) &&& (1 <<< (id &&& 63)) ≠ 0)

/-- The popcount loop of `abitset_expandable_count` (lines 104-107):
`while (val) { val &= (val - 1); count++; }`.  The first argument bounds the
iterations; 64 iterations always suffice for a `uint64_t` word (each step
clears one set bit), so the fuel-exhausted branch is dead for every word the
code stores. -/
def popcountAux : Nat → Nat → Nat
  | 0, _ => 0
  | fuel + 1, val => if val = 0 then 0 else popcountAux fuel (val &&& (val - 1)) + 1

/-- `abitset_expandable_count` (lines 98-111): scan every directory slot, skip
null pages, sum the popcount of all 512 words of each allocated page. -/
def abitset_expandable_count (h : abitset_expandable_s) : Nat :=
  (List.range h.page_count).foldl
    (fun c i =>
      match h.pages i with
      | none => c
      | some pg => (List.range PAGE_ENTRIES).foldl (fun c2 j => c2 + popcountAux 64 (pg j)) c)
    0

/-- `abitset_expandable_size` (lines 113-115): returns `max_bit + 1` in
`uint32_t` arithmetic (the logical size). -/
def abitset_expandable_size (h : abitset_expandable_s) : Nat :=
  (h.max_bit + 1) % U32

/-- The `memcpy(&repr[start_idx], h->pages[i], bytes_to_copy)` of
`abitset_expandable_repr` (line 136), at word granularity (`bytes_to_copy` is
always a multiple of 8): write `pg j` to `dst[start + j]` for `j < words`.
A write past the end of `dst` (heap overflow, undefined behaviour in C) is a
dropped `List.set`. -/
def copyWords (dst : List Nat) (start : Nat) (pg : Page) (words : Nat) : List Nat :=
  (List.range words).foldl (fun d j => d.set (start + j) (pg j)) dst

/-- One iteration of the page loop of `abitset_expandable_repr` (lines
124-137), for a fixed logical `size`: skip null pages, compute `start_idx`,
`bits_remaining` and `bytes_to_copy` in `uint32_t` arithmetic, and copy
`bytes_to_copy / 8` words. -/
def reprStep (size : Nat) (pages : Nat → Option Page) (dst : List Nat) (i : Nat) :
    List Nat :=
  match pages i with
  | none => dst
  | some pg =>
      let start_idx := (i <<< 9) % U32
      let bits_remaining := (size + U32 - (start_idx <<< 6) % U32) % U32
      let words_to_copy :=
        if PAGE_ENTRIES <<< 6 ≤ bits_remaining then PAGE_ENTRIES
        else ((bits_remaining + 63) % U32) >>> 6
      copyWords dst start_idx pg words_to_copy

/-- `abitset_expandable_repr` (lines 119-140): allocate a zeroed dense array of
`(size + 63) >> 6` words for `size = max_bit + 1` (both in `uint32_t`
arithmetic), then copy every allocated page into it. -/
def abitset_expandable_repr (h : abitset_expandable_s) : List Nat :=
  let size := (h.max_bit + 1) % U32
  let num_entries := ((size + 63) % U32) >>> 6
  (List.range h.page_count).foldl (reprStep size h.pages) (List.replicate num_entries 0)

/-- One iteration of the word loop of `abitset_expandable_load` (lines
154-168): skip zero words; otherwise allocate the owning page if absent and
store the word at its offset. -/
def loadStep (r : List Nat) (h : abitset_expandable_s) (i : Nat) :
    abitset_expandable_s :=
  let value := r.getD i 0
  if value = 0 then h
  else
    let page := i >>> 9
    let offset := i &&& (PAGE_ENTRIES - 1)
    let h' :=
      match h.pages page with
      | none =>
          { h with pages := fun k => if k = page then some (fun _ => 0) else h.pages k }
      | some _ => h
    match h'.pages page with
    | none => h'
    | some pg =>
        { h' with
          pages := fun k =>
            if k = page then some (fun j => if j = offset then value else pg j)
            else h'.pages k }

/-- `abitset_expandable_load` (lines 143-174): start from a fresh handle,
expand for `size - 1` (in `uint32_t` arithmetic: for `size = 0` this is
`2^32 - 1`), copy every non-zero word of the dense array, and finally set
`max_bit = size - 1` unconditionally. -/
def abitset_expandable_load (r : List Nat) (size : Nat) : abitset_expandable_s :=
  let h0 := abitset_expandable_init
  let num_entries := ((size + 63) % U32) >>> 6
  let h1 := abitset_expandable_expand h0 ((size + U32 - 1) % U32)
  let h2 := (List.range num_entries).foldl (loadStep r) h1
  { h2 with max_bit := (size + U32 - 1) % U32 }

/-- A mutating client call: `abitset_expandable_set` or
`abitset_expandable_unset` with a given id. -/
inductive BitOp where
  | set (id : Nat)
  | unset (id : Nat)

/-- The id argument of a `BitOp`. -/
def opId : BitOp → Nat
  | .set id => id
  | .unset id => id

/-- Apply one `BitOp` to a handle. -/
def applyOp (h : abitset_expandable_s) : BitOp → abitset_expandable_s
  | .set id => abitset_expandable_set h id
  | .unset id => abitset_expandable_unset h id

/-- The handle built from a fresh `abitset_expandable_init` by a finite
sequence of set/unset calls. -/
def buildFrom (ops : List BitOp) : abitset_expandable_s :=
  ops.foldl applyOp abitset_expandable_init

/-- The word `h->pages[p][o]`, reading an unallocated page as zero (an
unallocated page is semantically all-zero to every reader that checks the
null pointer first). -/
def pageWord (h : abitset_expandable_s) (p o : Nat) : Nat :=
  match h.pages p with
  | none => 0
  | some pg => pg o

/-- Modelled from the spec (§4.1, resolution (a)): the page index the
specification requires, `n >> log2(64*W)` with `W = PAGE_ENTRIES = 512`, i.e.
shift 15 (`2^15 = 64 * PAGE_ENTRIES`).  Used only to compare against the
page-index expression the code actually uses. -/
def page_index_spec (n : Nat) : Nat := n >>> 15

/-- The page-index expression the code uses in `abitset_expandable_set`/
`_unset`/`_enabled`/`_expand` (lines 39, 72, 81, 90): `id >> 18`. -/
def page_index_of (n : Nat) : Nat := n >>> 18

/-- Well-formedness of a handle, established by `abitset_expandable_init` and
preserved by every operation: the directory capacity never shrinks below
INITIAL_PAGES, no page lives at or beyond the capacity, the page of `max_bit`
is within capacity, and every allocated page index is at most
`max_bit >> 18`. -/
structure WF (h : abitset_expandable_s) : Prop where
  pc_init : INITIAL_PAGES ≤ h.page_count
  pages_bound : ∀ p, h.page_count ≤ p → h.pages p = none
  maxbit_pc : h.max_bit >>> 18 < h.page_count
  pages_le : ∀ p, h.pages p ≠ none → p ≤ h.max_bit >>> 18

/-! ### Arithmetic glue: shifts and masks as division and remainder -/

theorem sr18_eq (n : Nat) : n >>> 18 = n / 262144 := by
  rw [Nat.shiftRight_eq_div_pow]

theorem sr9_eq (n : Nat) : n >>> 9 = n / 512 := by
  rw [Nat.shiftRight_eq_div_pow]

theorem sr6_eq (n : Nat) : n >>> 6 = n / 64 := by
  rw [Nat.shiftRight_eq_div_pow]

theorem and511_eq (n : Nat) : n &&& 511 = n % 512 := by
  have h9 : (511 : Nat) = 2 ^ 9 - 1 := by norm_num
  rw [h9, Nat.and_pow_two_sub_one_eq_mod]

theorem and63_eq (n : Nat) : n &&& 63 = n % 64 := by
  have h6 : (63 : Nat) = 2 ^ 6 - 1 := by norm_num
  rw [h6, Nat.and_pow_two_sub_one_eq_mod]

theorem sl9_eq (n : Nat) : n <<< 9 = n * 512 := by
  rw [Nat.shiftLeft_eq]

theorem sl6_eq (n : Nat) : n <<< 6 = n * 64 := by
  rw [Nat.shiftLeft_eq]

theorem sl18_eq (n : Nat) : n <<< 18 = n * 262144 := by
  rw [Nat.shiftLeft_eq]

theorem lt_two_pow_self (n : Nat) : n < 2 ^ n := by
  induction n with
  | zero => decide
  | succ n ih =>
      have h2 : 2 ^ (n + 1) = 2 ^ n + 2 ^ n := by rw [Nat.pow_succ]; omega
      have hp : 1 ≤ 2 ^ n := Nat.one_le_two_pow
      omega

theorem and_one_shiftLeft_ne_zero (x b : Nat) :
    x &&& (1 <<< b) ≠ 0 ↔ Nat.testBit x b := by
  rw [Nat.one_shiftLeft]
  constructor
  · intro hx
    by_contra hb
    apply hx
    apply Nat.eq_of_testBit_eq
    intro i
    rw [Nat.testBit_and, Nat.zero_testBit, Nat.testBit_two_pow]
    by_cases hib : b = i
    · subst hib; simp [Bool.eq_false_iff.mpr hb]
    · simp [hib]
  · intro hb h0
    have hcon := congrArg (fun y => Nat.testBit y b) h0
    simp only [Nat.testBit_and, Nat.testBit_two_pow, Nat.zero_testBit] at hcon
    rw [hb] at hcon
    simp at hcon

/-- The minimal-alias inequality of the addressing used by the code: the
lowest id that maps to page `id >> 18`, word `(id >> 6) & 511`, bit `id & 63`
is at most `id` itself. -/
theorem addr_le (id : Nat) :
    (id >>> 18) * 262144 + ((id >>> 6) &&& 511) * 64 + (id &&& 63) ≤ id := by
  rw [sr18_eq, sr6_eq, and511_eq, and63_eq]
  have h1 : id % 262144 = id / 64 % 4096 * 64 + id % 64 := by omega
  have h2 : id / 64 % 512 ≤ id / 64 % 4096 := by omega
  have h3 := Nat.div_add_mod id 262144
  omega

/-! ### The directory-doubling loop -/

theorem growAux_ge : ∀ fuel pc rp, pc ≤ growAux fuel pc rp := by
  intro fuel
  induction fuel with
  | zero => intro pc rp; exact Nat.le_refl pc
  | succ fuel ih =>
      intro pc rp
      simp only [growAux]
      split
      · exact Nat.le_refl pc
      · exact Nat.le_trans (by omega) (ih (2 * pc) rp)

theorem growAux_gt : ∀ fuel pc rp, rp < 2 ^ fuel * pc → rp < growAux fuel pc rp := by
  intro fuel
  induction fuel with
  | zero => intro pc rp hlt; simpa [growAux] using by simpa using hlt
  | succ fuel ih =>
      intro pc rp hlt
      simp only [growAux]
      split
      · assumption
      · apply ih
        have hring : 2 ^ (fuel + 1) * pc = 2 ^ fuel * (2 * pc) := by ring
        omega

/-- Fuel `rp + 1` always suffices when the capacity starts positive. -/
theorem growAux_gt_rp (pc rp : Nat) (hpc : 1 ≤ pc) : rp < growAux (rp + 1) pc rp := by
  apply growAux_gt
  have h1 : rp < 2 ^ rp := lt_two_pow_self rp
  have h2 : 2 ^ rp ≤ 2 ^ (rp + 1) := Nat.pow_le_pow_right (by omega) (by omega)
  calc rp < 2 ^ (rp + 1) := by omega
    _ ≤ 2 ^ (rp + 1) * pc := Nat.le_mul_of_pos_right _ (by omega)

/-! ### Characterizing expand, set and unset -/

theorem expand_max_bit (h : abitset_expandable_s) (id : Nat) :
    (abitset_expandable_expand h id).max_bit = max h.max_bit id := by
  have hr : (abitset_expandable_expand h id).max_bit
      = if h.max_bit < id then id else h.max_bit := rfl
  rw [hr]; split <;> omega

theorem expand_size (h : abitset_expandable_s) (id : Nat) :
    (abitset_expandable_expand h id).size =
      if h.size < (((id >>> 18) + 1) <<< 18) % U32 then (((id >>> 18) + 1) <<< 18) % U32
      else h.size := by
  simp only [abitset_expandable_expand]

theorem expand_page_count (h : abitset_expandable_s) (id : Nat) :
    (abitset_expandable_expand h id).page_count =
      if h.page_count ≤ id >>> 18 then
        growAux ((id >>> 18) + 1) h.page_count (id >>> 18)
      else h.page_count := by
  simp only [abitset_expandable_expand]

theorem expand_page_count_ge (h : abitset_expandable_s) (id : Nat) :
    h.page_count ≤ (abitset_expandable_expand h id).page_count := by
  rw [expand_page_count]
  split
  · exact growAux_ge _ _ _
  · exact Nat.le_refl _

theorem expand_page_count_gt (h : abitset_expandable_s) (id : Nat)
    (hpc : 1 ≤ h.page_count) :
    id >>> 18 < (abitset_expandable_expand h id).page_count := by
  rw [expand_page_count]
  split
  · exact growAux_gt_rp _ _ hpc
  · omega

theorem expand_pages (h : abitset_expandable_s) (id : Nat)
    (hb : ∀ p, h.page_count ≤ p → h.pages p = none) (p : Nat) :
    (abitset_expandable_expand h id).pages p =
      if p = id >>> 18 then some ((h.pages (id >>> 18)).getD (fun _ => 0))
      else h.pages p := by
  by_cases hg : h.page_count ≤ id >>> 18
  · have hnone : h.pages (id >>> 18) = none := hb _ hg
    have hlt : ¬ (id >>> 18 < h.page_count) := by omega
    simp only [abitset_expandable_expand, if_pos hg]
    simp only [if_neg hlt]
    by_cases hp : p = id >>> 18
    · simp [hp, hnone]
    · simp only [if_neg hp]
      by_cases hplt : p < h.page_count
      · simp [hplt]
      · simp [hplt, hb p (by omega)]
  · cases hq : h.pages (id >>> 18) with
    | none =>
        simp only [abitset_expandable_expand, if_neg hg, hq]
        by_cases hp : p = id >>> 18
        · simp [hp, hq]
        · simp [hp]
    | some pg =>
        simp only [abitset_expandable_expand, if_neg hg, hq]
        by_cases hp : p = id >>> 18
        · simp [hp, hq]
        · simp [hp]

theorem set_fields (h : abitset_expandable_s) (id : Nat) :
    (abitset_expandable_set h id).max_bit = (abitset_expandable_expand h id).max_bit ∧
    (abitset_expandable_set h id).page_count = (abitset_expandable_expand h id).page_count ∧
    (abitset_expandable_set h id).size = (abitset_expandable_expand h id).size := by
  unfold abitset_expandable_set
  cases hp : (abitset_expandable_expand h id).pages (id >>> 18) <;> simp [hp]

theorem unset_fields (h : abitset_expandable_s) (id : Nat) :
    (abitset_expandable_unset h id).max_bit = (abitset_expandable_expand h id).max_bit ∧
    (abitset_expandable_unset h id).page_count = (abitset_expandable_expand h id).page_count ∧
    (abitset_expandable_unset h id).size = (abitset_expandable_expand h id).size := by
  unfold abitset_expandable_unset
  cases hp : (abitset_expandable_expand h id).pages (id >>> 18) <;> simp [hp]

theorem set_pages (h : abitset_expandable_s) (id : Nat)
    (hb : ∀ p, h.page_count ≤ p → h.pages p = none) (p : Nat) :
    (abitset_expandable_set h id).pages p =
      if p = id >>> 18 then
        some (fun j =>
          if j = (id >>> 6) &&& (PAGE_ENTRIES - 1) then
            ((h.pages (id >>> 18)).getD (fun _ => 0)) j ||| (1 <<< (id &&& 63))
          else ((h.pages (id >>> 18)).getD (fun _ => 0)) j)
      else h.pages p := by
  have he := expand_pages h id hb
  have hsome : (abitset_expandable_expand h id).pages (id >>> 18)
      = some ((h.pages (id >>> 18)).getD (fun _ => 0)) := by
    rw [he (id >>> 18), if_pos rfl]
  unfold abitset_expandable_set
  simp only [hsome]
  by_cases hp : p = id >>> 18
  · simp [hp]
  · simp only [if_neg hp]
    rw [he p, if_neg hp]

theorem unset_pages (h : abitset_expandable_s) (id : Nat)
    (hb : ∀ p, h.page_count ≤ p → h.pages p = none) (p : Nat) :
    (abitset_expandable_unset h id).pages p =
      if p = id >>> 18 then
        some (fun j =>
          if j = (id >>> 6) &&& (PAGE_ENTRIES - 1) then
            ((h.pages (id >>> 18)).getD (fun _ => 0)) j &&& (U64 - 1 - (1 <<< (id &&& 63)))
          else ((h.pages (id >>> 18)).getD (fun _ => 0)) j)
      else h.pages p := by
  have he := expand_pages h id hb
  have hsome : (abitset_expandable_expand h id).pages (id >>> 18)
      = some ((h.pages (id >>> 18)).getD (fun _ => 0)) := by
    rw [he (id >>> 18), if_pos rfl]
  unfold abitset_expandable_unset
  simp only [hsome]
  by_cases hp : p = id >>> 18
  · simp [hp]
  · simp only [if_neg hp]
    rw [he p, if_neg hp]

/-! ### Preservation of well-formedness -/

theorem shiftRight18_mono {a b : Nat} (hab : a ≤ b) : a >>> 18 ≤ b >>> 18 := by
  rw [sr18_eq, sr18_eq]
  exact Nat.div_le_div_right hab

theorem wf_init : WF abitset_expandable_init := by
  constructor
  · exact Nat.le_refl _
  · intro p _; rfl
  · show 0 >>> 18 < 2048; decide
  · intro p hp; exact absurd rfl hp

/-- Any handle whose fields follow the write pattern of expand/set/unset
(only the page of `id >> 18` changes, `max_bit` and `page_count` as in
expand) stays well formed. -/
theorem wf_shape (h h2 : abitset_expandable_s) (id : Nat) (hWF : WF h)
    (hmb : h2.max_bit = max h.max_bit id)
    (hpc : h2.page_count = (abitset_expandable_expand h id).page_count)
    (hpg : ∀ p, p ≠ id >>> 18 → h2.pages p = h.pages p) : WF h2 := by
  have hpos : 1 ≤ h.page_count :=
    Nat.le_trans (by norm_num [INITIAL_PAGES]) hWF.pc_init
  constructor
  · rw [hpc]; exact Nat.le_trans hWF.pc_init (expand_page_count_ge h id)
  · intro p hple
    by_cases hp : p = id >>> 18
    · exfalso
      have hgt := expand_page_count_gt h id hpos
      rw [hpc] at hple
      omega
    · rw [hpg p hp]
      exact hWF.pages_bound p
        (Nat.le_trans (Nat.le_trans (expand_page_count_ge h id) (hpc ▸ hple)) (Nat.le_refl _))
  · rw [hmb, hpc]
    rcases Nat.le_total h.max_bit id with hle | hle
    · rw [Nat.max_eq_right hle]; exact expand_page_count_gt h id hpos
    · rw [Nat.max_eq_left hle]
      exact Nat.lt_of_lt_of_le hWF.maxbit_pc (expand_page_count_ge h id)
  · intro p hpn
    by_cases hp : p = id >>> 18
    · subst hp; rw [hmb]; exact shiftRight18_mono (Nat.le_max_right _ _)
    · rw [hpg p hp] at hpn
      rw [hmb]
      exact Nat.le_trans (hWF.pages_le p hpn) (shiftRight18_mono (Nat.le_max_left _ _))

theorem wf_expand (h : abitset_expandable_s) (id : Nat) (hWF : WF h) :
    WF (abitset_expandable_expand h id) := by
  apply wf_shape h _ id hWF (expand_max_bit h id) rfl
  intro p hp
  rw [expand_pages h id hWF.pages_bound p, if_neg hp]

theorem wf_set (h : abitset_expandable_s) (id : Nat) (hWF : WF h) :
    WF (abitset_expandable_set h id) := by
  apply wf_shape h _ id hWF
  · rw [(set_fields h id).1, expand_max_bit]
  · exact (set_fields h id).2.1
  · intro p hp
    rw [set_pages h id hWF.pages_bound p, if_neg hp]

theorem wf_unset (h : abitset_expandable_s) (id : Nat) (hWF : WF h) :
    WF (abitset_expandable_unset h id) := by
  apply wf_shape h _ id hWF
  · rw [(unset_fields h id).1, expand_max_bit]
  · exact (unset_fields h id).2.1
  · intro p hp
    rw [unset_pages h id hWF.pages_bound p, if_neg hp]

theorem wf_applyOp (h : abitset_expandable_s) (op : BitOp) (hWF : WF h) :
    WF (applyOp h op) := by
  cases op with
  | set id => exact wf_set h id hWF
  | unset id => exact wf_unset h id hWF

theorem wf_foldl (ops : List BitOp) :
    ∀ h : abitset_expandable_s, WF h → WF (ops.foldl applyOp h) := by
  induction ops with
  | nil => intro h hWF; exact hWF
  | cons op ops ih =>
      intro h hWF
      exact ih (applyOp h op) (wf_applyOp h op hWF)

theorem wf_buildFrom (ops : List BitOp) : WF (buildFrom ops) :=
  wf_foldl ops abitset_expandable_init wf_init

theorem applyOp_max_bit (h : abitset_expandable_s) (op : BitOp) :
    (applyOp h op).max_bit = max h.max_bit (opId op) := by
  cases op with
  | set id => rw [applyOp, opId, (set_fields h id).1, expand_max_bit]
  | unset id => rw [applyOp, opId, (unset_fields h id).1, expand_max_bit]

theorem U32_eq : U32 = 4294967296 := rfl

theorem copyWords_zero (d : List Nat) (s : Nat) (pg : Page) : copyWords d s pg 0 = d := rfl

theorem copyWords_succ (d : List Nat) (s : Nat) (pg : Page) (w : Nat) :
    copyWords d s pg (w + 1) = (copyWords d s pg w).set (s + w) (pg w) := by
  unfold copyWords
  rw [List.range_succ, List.foldl_append]
  rfl

theorem copyWords_length (d : List Nat) (s : Nat) (pg : Page) (w : Nat) :
    (copyWords d s pg w).length = d.length := by
  induction w with
  | zero => rfl
  | succ w ih => rw [copyWords_succ, List.length_set, ih]

theorem getD_replicate_zero (n k : Nat) : (List.replicate n (0 : Nat)).getD k 0 = 0 := by
  rw [List.getD_eq_getElem?_getD, List.getElem?_replicate]
  split <;> rfl

theorem copyWords_getD (d : List Nat) (s : Nat) (pg : Page) (w : Nat) (k : Nat) :
    (copyWords d s pg w).getD k 0 =
      if s ≤ k ∧ k < s + w ∧ k < d.length then pg (k - s) else d.getD k 0 := by
  induction w with
  | zero =>
      have hno : ¬ (s ≤ k ∧ k < s + 0 ∧ k < d.length) := by omega
      rw [copyWords_zero, if_neg hno]
  | succ w ih =>
      rw [copyWords_succ]
      by_cases hk : s + w = k
      · subst hk
        by_cases hlen : s + w < d.length
        · rw [List.getD_eq_getElem?_getD,
            List.getElem?_set_self (by rw [copyWords_length]; exact hlen)]
          simp only [Option.getD_some]
          rw [if_pos (by omega)]
          congr 1
          omega
        · rw [List.getD_eq_getElem?_getD, List.getElem?_set, copyWords_length]
          rw [if_pos rfl, if_neg hlen]
          simp only [Option.getD_none]
          rw [if_neg (by omega)]
          rw [List.getD_eq_getElem?_getD, List.getElem?_eq_none (by omega)]
          rfl
      · rw [List.getD_eq_getElem?_getD, List.getElem?_set_ne hk, ← List.getD_eq_getElem?_getD]
        rw [ih]
        by_cases hc : s ≤ k ∧ k < s + w ∧ k < d.length
        · rw [if_pos hc, if_pos (by omega)]
        · rw [if_neg hc, if_neg (by omega)]

theorem repr_eq_fold (h : abitset_expandable_s) (hm : h.max_bit + 64 < U32) :
    abitset_expandable_repr h =
      (List.range h.page_count).foldl (reprStep (h.max_bit + 1) h.pages)
        (List.replicate ((h.max_bit + 64) >>> 6) 0) := by
  rw [U32_eq] at hm
  have h1 : (h.max_bit + 1) % U32 = h.max_bit + 1 := by rw [U32_eq]; omega
  have h2 : (h.max_bit + 1 + 63) % U32 = h.max_bit + 64 := by rw [U32_eq]; omega
  unfold abitset_expandable_repr
  simp only [h1, h2]

theorem repr_fold_spec (h : abitset_expandable_s) (hWF : WF h)
    (hm : h.max_bit + 64 < U32) (n : Nat) :
    (((List.range n).foldl (reprStep (h.max_bit + 1) h.pages)
        (List.replicate ((h.max_bit + 64) >>> 6) 0)).length = (h.max_bit + 64) >>> 6)
    ∧ ∀ k, k < (h.max_bit + 64) >>> 6 →
        ((List.range n).foldl (reprStep (h.max_bit + 1) h.pages)
          (List.replicate ((h.max_bit + 64) >>> 6) 0)).getD k 0
        = if k >>> 9 < n then pageWord h (k >>> 9) (k &&& 511) else 0 := by
  rw [U32_eq] at hm
  induction n with
  | zero =>
      constructor
      · simp
      · intro k hk
        rw [if_neg (by omega)]
        exact getD_replicate_zero _ _
  | succ n ih =>
      rw [List.range_succ, List.foldl_append, List.foldl_cons, List.foldl_nil] at *
      cases hpg : h.pages n with
      | none =>
          refine ⟨by simp only [reprStep, hpg]; exact ih.1, ?_⟩
          intro k hk
          simp only [reprStep, hpg]
          rw [ih.2 k hk]
          by_cases hlt : k >>> 9 < n
          · rw [if_pos hlt, if_pos (by omega)]
          · rw [if_neg hlt]
            by_cases heq : k >>> 9 = n
            · rw [if_pos (by omega), heq]
              unfold pageWord
              rw [hpg]
            · rw [if_neg (by omega)]
      | some pg =>
          have hle : n ≤ h.max_bit >>> 18 :=
            hWF.pages_le n (by rw [hpg]; exact Option.some_ne_none pg)
          rw [sr18_eq] at hle
          have hn16 : n ≤ 16383 := by omega
          have hstart : (n <<< 9) % U32 = n * 512 := by
            rw [sl9_eq, U32_eq]; omega
          have hsl : (n * 512) <<< 6 = n * 32768 := by
            rw [sl6_eq]; ring
          have hx : (n * 32768) % U32 = n * 32768 := by
            rw [U32_eq]; omega
          have hbr : (h.max_bit + 1 + U32 - n * 32768) % U32
              = h.max_bit + 1 - n * 32768 := by
            rw [U32_eq]; omega
          have hPE : PAGE_ENTRIES <<< 6 = 32768 := rfl
          have hwtc :
              (if PAGE_ENTRIES <<< 6 ≤ h.max_bit + 1 - n * 32768 then PAGE_ENTRIES
               else ((h.max_bit + 1 - n * 32768 + 63) % U32) >>> 6) ≤ 512
              ∧ ∀ o, o < (if PAGE_ENTRIES <<< 6 ≤ h.max_bit + 1 - n * 32768 then PAGE_ENTRIES
               else ((h.max_bit + 1 - n * 32768 + 63) % U32) >>> 6)
                ↔ (o < 512 ∧ n * 32768 + o * 64 < h.max_bit + 1) := by
            rw [hPE]
            by_cases hbig : 32768 ≤ h.max_bit + 1 - n * 32768
            · rw [if_pos hbig]
              have hP : PAGE_ENTRIES = 512 := rfl
              rw [hP]
              refine ⟨by omega, ?_⟩
              intro o
              constructor
              · intro ho; exact ⟨ho, by omega⟩
              · intro ho; exact ho.1
            · rw [if_neg hbig]
              have hsmall : (h.max_bit + 1 - n * 32768 + 63) % U32
                  = h.max_bit + 1 - n * 32768 + 63 := by
                rw [U32_eq]; omega
              rw [hsmall, sr6_eq]
              have hdm := Nat.div_add_mod (h.max_bit + 1 - n * 32768 + 63) 64
              have hmod := Nat.mod_lt (h.max_bit + 1 - n * 32768 + 63) (y := 64) (by omega)
              constructor
              · omega
              · intro o; omega
          refine ⟨?_, ?_⟩
          · simp only [reprStep, hpg]
            rw [hstart, hsl, hx, hbr, copyWords_length]
            exact ih.1
          · intro k hk
            simp only [reprStep, hpg]
            rw [hstart, hsl, hx, hbr, copyWords_getD, ih.1, ih.2 k hk]
            have hk9 := sr9_eq k
            have hk5 := and511_eq k
            have hNE : 64 * k ≤ h.max_bit := by
              rw [sr6_eq] at hk
              omega
            by_cases hsplit : k / 512 = n
            · have ho := (hwtc.2 (k % 512)).mpr ⟨by omega, by omega⟩
              rw [if_pos ⟨by omega, by omega, hk⟩, if_pos (by omega : k >>> 9 < n + 1)]
              unfold pageWord
              rw [hk9, hsplit, hpg]
              congr 1
              omega
            · have hwle := hwtc.1
              by_cases hlt : k / 512 < n
              · rw [if_neg (by omega), if_pos (by rw [hk9]; omega), if_pos (by rw [hk9]; omega)]
              · rw [if_neg ?late, if_neg (by rw [hk9]; omega), if_neg (by rw [hk9]; omega)]
                case late =>
                  have hge : n + 1 ≤ k / 512 := by omega
                  have : (n + 1) * 512 ≤ k := by
                    have := Nat.div_add_mod k 512
                    have hm5 := Nat.mod_lt k (y := 512) (by omega)
                    omega
                  omega

theorem repr_spec (h : abitset_expandable_s) (hWF : WF h) (hm : h.max_bit + 64 < U32) :
    (abitset_expandable_repr h).length = (h.max_bit + 64) >>> 6 ∧
    ∀ k, k < (h.max_bit + 64) >>> 6 →
      (abitset_expandable_repr h).getD k 0 = pageWord h (k >>> 9) (k &&& 511) := by
  have hf := repr_fold_spec h hWF hm h.page_count
  rw [repr_eq_fold h hm]
  refine ⟨hf.1, ?_⟩
  intro k hk
  rw [hf.2 k hk]
  by_cases hlt : k >>> 9 < h.page_count
  · rw [if_pos hlt]
  · rw [if_neg hlt]
    unfold pageWord
    rw [hWF.pages_bound _ (by omega)]

theorem loadStep_fields (r : List Nat) (h : abitset_expandable_s) (i : Nat) :
    (loadStep r h i).page_count = h.page_count ∧
    (loadStep r h i).max_bit = h.max_bit ∧
    (loadStep r h i).size = h.size := by
  unfold loadStep
  by_cases hv : r.getD i 0 = 0
  · rw [if_pos hv]
    exact ⟨rfl, rfl, rfl⟩
  · rw [if_neg hv]
    cases hp : h.pages (i >>> 9) <;> simp [hp]

theorem loadFold_fields (r : List Nat) (n : Nat) (h : abitset_expandable_s) :
    ((List.range n).foldl (loadStep r) h).page_count = h.page_count ∧
    ((List.range n).foldl (loadStep r) h).max_bit = h.max_bit ∧
    ((List.range n).foldl (loadStep r) h).size = h.size := by
  induction n with
  | zero => exact ⟨rfl, rfl, rfl⟩
  | succ n ih =>
      rw [List.range_succ, List.foldl_append, List.foldl_cons, List.foldl_nil]
      have hs := loadStep_fields r ((List.range n).foldl (loadStep r) h) n
      exact ⟨hs.1.trans ih.1, hs.2.1.trans ih.2.1, hs.2.2.trans ih.2.2⟩

theorem loadStep_of_zero (r : List Nat) (h : abitset_expandable_s) (i : Nat)
    (hv : r.getD i 0 = 0) : loadStep r h i = h := by
  unfold loadStep
  rw [if_pos hv]

theorem loadStep_pages (r : List Nat) (h : abitset_expandable_s) (i : Nat)
    (hv : ¬ r.getD i 0 = 0) (k : Nat) :
    (loadStep r h i).pages k =
      if k = i >>> 9 then
        some (fun j => if j = i &&& (PAGE_ENTRIES - 1) then r.getD i 0
          else ((h.pages (i >>> 9)).getD (fun _ => 0)) j)
      else h.pages k := by
  unfold loadStep
  rw [if_neg hv]
  cases hp : h.pages (i >>> 9) with
  | none =>
      by_cases hk : k = i >>> 9 <;> simp [hp, hk]
  | some pgold =>
      by_cases hk : k = i >>> 9 <;> simp [hp, hk]

theorem loadStep_pageWord (r : List Nat) (h : abitset_expandable_s) (i : Nat)
    (p o : Nat) (ho : o < 512) :
    pageWord (loadStep r h i) p o =
      if p * 512 + o = i ∧ r.getD i 0 ≠ 0 then r.getD i 0 else pageWord h p o := by
  have hPE : PAGE_ENTRIES - 1 = 511 := rfl
  have hi9 := sr9_eq i
  have hi5 := and511_eq i
  by_cases hv : r.getD i 0 = 0
  · rw [loadStep_of_zero r h i hv, if_neg (fun hcon => hcon.2 hv)]
  · unfold pageWord
    rw [loadStep_pages r h i hv p]
    by_cases hpq : p = i >>> 9
    · rw [if_pos hpq]
      by_cases hoq : o = i &&& (PAGE_ENTRIES - 1)
      · have heq : p * 512 + o = i := by
          rw [hpq, hoq, hPE, hi9, hi5]
          omega
        rw [if_pos ⟨heq, hv⟩]
        simp only []
        rw [if_pos hoq]
      · have hne : ¬ (p * 512 + o = i ∧ r.getD i 0 ≠ 0) := by
          intro hcon
          apply hoq
          rw [hPE, hi5]
          omega
        rw [if_neg hne]
        simp only []
        rw [if_neg hoq, hpq]
        cases hq : h.pages (i >>> 9) <;> simp [hq]
    · have hne : ¬ (p * 512 + o = i ∧ r.getD i 0 ≠ 0) := by
        intro hcon
        apply hpq
        rw [hi9]
        omega
      rw [if_neg hne, if_neg hpq]

theorem loadFold_pageWord (r : List Nat) (h1 : abitset_expandable_s)
    (hz : ∀ p o, pageWord h1 p o = 0) (n : Nat) :
    ∀ p o, o < 512 →
      pageWord ((List.range n).foldl (loadStep r) h1) p o
        = if p * 512 + o < n then r.getD (p * 512 + o) 0 else 0 := by
  induction n with
  | zero =>
      intro p o ho
      rw [if_neg (by omega)]
      exact hz p o
  | succ n ih =>
      intro p o ho
      rw [List.range_succ, List.foldl_append, List.foldl_cons, List.foldl_nil]
      rw [loadStep_pageWord r _ n p o ho, ih p o ho]
      by_cases heq : p * 512 + o = n
      · by_cases hvz : r.getD n 0 = 0
        · rw [if_neg (fun hcon => hcon.2 hvz), if_neg (by omega), if_pos (by omega), heq, hvz]
        · rw [if_pos ⟨heq, hvz⟩, if_pos (by omega), heq]
      · rw [if_neg (fun hcon => heq hcon.1)]
        by_cases hlt : p * 512 + o < n
        · rw [if_pos hlt, if_pos (by omega)]
        · rw [if_neg hlt, if_neg (by omega)]

theorem pageWord_expand_init (id p o : Nat) :
    pageWord (abitset_expandable_expand abitset_expandable_init id) p o = 0 := by
  unfold pageWord
  rw [expand_pages abitset_expandable_init id (fun q _ => rfl) p]
  by_cases hp : p = id >>> 18
  · rw [if_pos hp]
    rfl
  · rw [if_neg hp]
    rfl

theorem load_max_bit (r : List Nat) (s : Nat) :
    (abitset_expandable_load r s).max_bit = (s + U32 - 1) % U32 := by
  unfold abitset_expandable_load
  simp only []

theorem load_page_count (r : List Nat) (s : Nat) :
    (abitset_expandable_load r s).page_count =
      (abitset_expandable_expand abitset_expandable_init ((s + U32 - 1) % U32)).page_count := by
  unfold abitset_expandable_load
  simp only []
  exact (loadFold_fields r _ _).1

theorem load_size_field (r : List Nat) (s : Nat) :
    (abitset_expandable_load r s).size =
      (abitset_expandable_expand abitset_expandable_init ((s + U32 - 1) % U32)).size := by
  unfold abitset_expandable_load
  simp only []
  exact (loadFold_fields r _ _).2.2

theorem load_pageWord (r : List Nat) (s : Nat) (p o : Nat) (ho : o < 512) :
    pageWord (abitset_expandable_load r s) p o =
      if p * 512 + o < ((s + 63) % U32) >>> 6 then r.getD (p * 512 + o) 0 else 0 := by
  have hstep : ∀ (h2 : abitset_expandable_s) (m : Nat),
      pageWord { h2 with max_bit := m } p o = pageWord h2 p o := fun _ _ => rfl
  unfold abitset_expandable_load
  simp only []
  rw [hstep, loadFold_pageWord r _ (pageWord_expand_init _) _ p o ho]

theorem enabled_false_of_ge (h : abitset_expandable_s) (id : Nat)
    (hge : h.max_bit ≤ id) : abitset_expandable_enabled h id = false := by
  unfold abitset_expandable_enabled
  rw [if_pos hge]

theorem enabled_eq_testBit (h : abitset_expandable_s) (id : Nat)
    (h1 : id < h.max_bit) (h2 : id >>> 18 < h.page_count) :
    abitset_expandable_enabled h id
      = decide (Nat.testBit (pageWord h (id >>> 18) ((id >>> 6) &&& (PAGE_ENTRIES - 1)))
          (id &&& 63)) := by
  unfold abitset_expandable_enabled pageWord
  rw [if_neg (by omega), if_neg (by omega)]
  cases hp : h.pages (id >>> 18) with
  | none => simp [Nat.zero_testBit]
  | some pg =>
      simp only []
      rw [decide_eq_decide]
      exact and_one_shiftLeft_ne_zero _ _

theorem roundtrip_core (h : abitset_expandable_s) (hWF : WF h)
    (hm : h.max_bit + 64 < U32) (id : Nat) (_hid : id ≤ h.max_bit) :
    abitset_expandable_enabled
      (abitset_expandable_load (abitset_expandable_repr h) (abitset_expandable_size h)) id
    = abitset_expandable_enabled h id := by
  have hU : U32 = 4294967296 := rfl
  have hm' : h.max_bit + 64 < 4294967296 := by rw [hU] at hm; exact hm
  have hsz : abitset_expandable_size h = h.max_bit + 1 := by
    unfold abitset_expandable_size
    rw [hU]
    omega
  rw [hsz]
  have hmb2 : (abitset_expandable_load (abitset_expandable_repr h) (h.max_bit + 1)).max_bit
      = h.max_bit := by
    rw [load_max_bit, hU]
    omega
  rcases Nat.lt_or_ge id h.max_bit with hlt | hge
  · have hPE : PAGE_ENTRIES - 1 = 511 := rfl
    have h18 := sr18_eq id
    have h6 := sr6_eq id
    have hO : (id >>> 6) &&& (PAGE_ENTRIES - 1) = id / 64 % 512 := by
      rw [hPE, and511_eq, h6]
    have hOlt : (id >>> 6) &&& (PAGE_ENTRIES - 1) < 512 := by
      rw [hO]; omega
    have hpc2 : id >>> 18 <
        (abitset_expandable_load (abitset_expandable_repr h) (h.max_bit + 1)).page_count := by
      rw [load_page_count]
      have hmm : (h.max_bit + 1 + U32 - 1) % U32 = h.max_bit := by rw [hU]; omega
      rw [hmm]
      have hgt := expand_page_count_gt abitset_expandable_init h.max_bit (by decide)
      have hmono : id >>> 18 ≤ h.max_bit >>> 18 := shiftRight18_mono (Nat.le_of_lt hlt)
      omega
    have hpc1 : id >>> 18 < h.page_count := by
      have hwf := hWF.maxbit_pc
      have hmono : id >>> 18 ≤ h.max_bit >>> 18 := shiftRight18_mono (Nat.le_of_lt hlt)
      omega
    rw [enabled_eq_testBit _ id (by rw [hmb2]; exact hlt) hpc2,
        enabled_eq_testBit h id hlt hpc1]
    have haddr := addr_le id
    rw [sr18_eq, sr6_eq, and511_eq, and63_eq] at haddr
    have hk64 : 64 * ((id >>> 18) * 512 + ((id >>> 6) &&& (PAGE_ENTRIES - 1))) ≤ id := by
      rw [hO, h18]
      omega
    have hNE : (h.max_bit + 1 + 63) % U32 = h.max_bit + 64 := by rw [hU]; omega
    rw [load_pageWord _ _ _ _ hOlt, hNE]
    have hkNE : (id >>> 18) * 512 + ((id >>> 6) &&& (PAGE_ENTRIES - 1))
        < (h.max_bit + 64) >>> 6 := by
      rw [sr6_eq (h.max_bit + 64)]
      omega
    rw [if_pos hkNE]
    have hrs := (repr_spec h hWF hm).2 _ hkNE
    rw [hrs]
    have hkP : ((id >>> 18) * 512 + ((id >>> 6) &&& (PAGE_ENTRIES - 1))) >>> 9
        = id >>> 18 := by
      rw [sr9_eq, hO]
      omega
    have hkO : ((id >>> 18) * 512 + ((id >>> 6) &&& (PAGE_ENTRIES - 1))) &&& 511
        = (id >>> 6) &&& (PAGE_ENTRIES - 1) := by
      rw [and511_eq, hO]
      omega
    rw [hkP, hkO]
  · rw [enabled_false_of_ge _ id (by rw [hmb2]; exact hge),
        enabled_false_of_ge h id hge]

/-! ### Helpers for the claim theorems -/

theorem size_update_expand (h : abitset_expandable_s) (id : Nat)
    (h3 : id >>> 18 < 16383) (h2 : h.size < ((id >>> 18) + 1) * 262144) :
    (abitset_expandable_expand h id).size = ((id >>> 18) + 1) * 262144 := by
  rw [expand_size]
  have hv : (((id >>> 18) + 1) <<< 18) % U32 = ((id >>> 18) + 1) * 262144 := by
    rw [sl18_eq, U32_eq]
    omega
  rw [hv, if_pos h2]

theorem unset_size_fn (h : abitset_expandable_s) (id : Nat)
    (h1 : id < U32 - 1) (h2 : h.max_bit < U32 - 1) :
    id < abitset_expandable_size (abitset_expandable_unset h id) := by
  have hmb : (abitset_expandable_unset h id).max_bit = max h.max_bit id := by
    rw [(unset_fields h id).1, expand_max_bit]
  show id < ((abitset_expandable_unset h id).max_bit + 1) % U32
  rw [hmb]
  rcases Nat.le_total h.max_bit id with hc | hc
  · rw [Nat.max_eq_right hc, U32_eq]
    rw [U32_eq] at h1
    omega
  · rw [Nat.max_eq_left hc, U32_eq]
    rw [U32_eq] at h1 h2
    omega

/-! ### The claims -/

/-- Claim C1 (code_bug evidence): on the failing input, a fresh handle after
`set(h, 0)`, the query `test(h, 0)` returns false, because `enabled` rejects
every `id >= max_bit` while `set` only raises `max_bit` to the id itself; the
claim (spec §8) requires `test(h, a) == true` immediately after `set(h, a)`. -/
theorem claim_c1_code_divergence :
    abitset_expandable_enabled
      (abitset_expandable_set abitset_expandable_init 0) 0 = false := by decide

/-- Claim C2 (code_bug evidence): on the failing input `a = 0`, `b = 32768`,
a fresh handle has `test(h, 0) = false`, yet after `set(h, 32768)` the query
`test(h, 0)` returns true: the page index uses shift 18 while a page holds
only `2^15` bits, so ids `2^15` apart alias onto the same stored word, and the
raised `max_bit` unmasks it.  The claim requires `set(h, b)` to never change
`test(h, a)` for `a ≠ b`. -/
theorem claim_c2_code_divergence :
    abitset_expandable_enabled abitset_expandable_init 0 = false ∧
    abitset_expandable_enabled
      (abitset_expandable_set abitset_expandable_init 32768) 0 = true := by decide

/-- Claim C3 (code_bug evidence): resolution (a) of the spec demands page
index `n >> log2(64*W)`; with `W = PAGE_ENTRIES = 512` the addressable span
per page is `64 * PAGE_ENTRIES = 2^15`, so the required shift is 15 and
`page_index_spec 32768 = 1`, but the code's page-index expression
(`id >> 18`, `page_index_of`) yields 0 for id 32768: the page-selection
granularity (`2^18`) is coarser than the span a page can store. -/
theorem claim_c3_code_divergence :
    64 * PAGE_ENTRIES = 2 ^ 15 ∧
    page_index_spec 32768 = 1 ∧
    page_index_of 32768 = 0 := by decide

/-- Claim C4 (amended): for every handle built from a finite sequence of
set/unset operations whose `max_bit` satisfies `max_bit + 64 < 2^32` (so the
32-bit expressions `max_bit + 1` and `size + 63` in repr/load do not wrap),
the reload `load(repr(h), logical_size(h))` answers every `test(id)` query
with `id ≤ max_bit` exactly as the original handle. -/
theorem claim_c4_round_trip (ops : List BitOp) (id : Nat)
    (hm : (buildFrom ops).max_bit + 64 < U32)
    (hid : id ≤ (buildFrom ops).max_bit) :
    abitset_expandable_enabled
      (abitset_expandable_load (abitset_expandable_repr (buildFrom ops))
        (abitset_expandable_size (buildFrom ops))) id
    = abitset_expandable_enabled (buildFrom ops) id :=
  roundtrip_core (buildFrom ops) (wf_buildFrom ops) hm id hid

/-- Witness for C4: the sequence `set 3; set 10` satisfies the bound, id 3 is
in range, and the round trip preserves `test(·, 3)`. -/
theorem claim_c4_witness :
    (buildFrom [BitOp.set 3, BitOp.set 10]).max_bit + 64 < U32 ∧
    3 ≤ (buildFrom [BitOp.set 3, BitOp.set 10]).max_bit ∧
    abitset_expandable_enabled
      (abitset_expandable_load
        (abitset_expandable_repr (buildFrom [BitOp.set 3, BitOp.set 10]))
        (abitset_expandable_size (buildFrom [BitOp.set 3, BitOp.set 10]))) 3
    = abitset_expandable_enabled (buildFrom [BitOp.set 3, BitOp.set 10]) 3 :=
  ⟨by decide, by decide,
    claim_c4_round_trip [BitOp.set 3, BitOp.set 10] 3 (by decide) (by decide)⟩

/-- Counterexample for C4 as stated: the sequence `set 0; set (2^32 - 64)` is
a finite sequence of set operations, id 0 is in `[0, max_bit]` and
`test(h, 0) = true`, yet after the round trip `test(·, 0)` is false: with
`max_bit = 2^32 - 64` the 32-bit expression `size + 63` wraps to 0, so the
dense array has zero words and every stored bit is lost. -/
theorem claim_c4_counterexample :
    abitset_expandable_enabled
      (buildFrom [BitOp.set 0, BitOp.set 4294967232]) 0 = true ∧
    abitset_expandable_enabled
      (abitset_expandable_load
        (abitset_expandable_repr (buildFrom [BitOp.set 0, BitOp.set 4294967232]))
        (abitset_expandable_size (buildFrom [BitOp.set 0, BitOp.set 4294967232]))) 0
      = false := by decide

/-- Claim C5 (code_bug evidence): after `set(h, 0)` on a fresh handle,
`count(h) = 1` (the stored bit is counted by the raw page scan) but
`test(h, id)` is false for every `id` in `[0, logical_size(h)) = [0, 1)`,
because `enabled` rejects `id >= max_bit = 0`; the claim requires the two
quantities to be equal. -/
theorem claim_c5_code_divergence :
    abitset_expandable_count (abitset_expandable_set abitset_expandable_init 0) = 1 ∧
    (List.range (abitset_expandable_size
        (abitset_expandable_set abitset_expandable_init 0))).countP
      (fun id => abitset_expandable_enabled
        (abitset_expandable_set abitset_expandable_init 0) id) = 0 := by decide

/-- Claim C6 (confirmed): for every handle and id, `test` returns false when
`id >= max_bit`, when the page index `id / 2^18` is at or beyond the
directory capacity, or when that page was never allocated; otherwise it
returns the addressed stored bit (word `id / 64 mod 512` of the page, bit
`id mod 64`).  In this embedding `enabled` is a pure function of the handle,
so it allocates nothing and mutates no handle state. -/
theorem claim_c6_enabled_spec (h : abitset_expandable_s) (id : Nat) :
    (h.max_bit ≤ id → abitset_expandable_enabled h id = false) ∧
    (h.page_count ≤ id / 262144 → abitset_expandable_enabled h id = false) ∧
    ((h.pages (id / 262144)).isSome = false → abitset_expandable_enabled h id = false) ∧
    ((h.pages (id / 262144)).isSome = true → id < h.max_bit →
      id / 262144 < h.page_count →
      (abitset_expandable_enabled h id = true ↔
        Nat.testBit (pageWord h (id / 262144) (id / 64 % 512)) (id % 64))) := by
  refine ⟨enabled_false_of_ge h id, ?_, ?_, ?_⟩
  · intro hpc
    unfold abitset_expandable_enabled
    by_cases hge : h.max_bit ≤ id
    · rw [if_pos hge]
    · rw [if_neg hge, if_pos (by rw [sr18_eq]; exact hpc)]
  · intro hnone
    have hn : h.pages (id >>> 18) = none := by
      rw [sr18_eq]
      cases hq : h.pages (id / 262144) with
      | none => rfl
      | some pg => rw [hq] at hnone; simp at hnone
    unfold abitset_expandable_enabled
    by_cases hge : h.max_bit ≤ id
    · rw [if_pos hge]
    · rw [if_neg hge]
      by_cases hpc : h.page_count ≤ id >>> 18
      · rw [if_pos hpc]
      · rw [if_neg hpc, hn]
  · intro hsome hlt hpc
    rw [enabled_eq_testBit h id hlt (by rw [sr18_eq]; exact hpc)]
    have hPE : PAGE_ENTRIES - 1 = 511 := rfl
    have hO : (id >>> 6) &&& (PAGE_ENTRIES - 1) = id / 64 % 512 := by
      rw [hPE, and511_eq, sr6_eq]
    rw [sr18_eq, hO, and63_eq]
    simp [decide_eq_true_iff]

/-- Witness for C6: on the handle built by `set 9; set 5` each of the four
cases of the claim is realized at a concrete id. -/
theorem claim_c6_witness :
    (abitset_expandable_enabled
      (abitset_expandable_set (abitset_expandable_set abitset_expandable_init 9) 5) 20
        = false) ∧
    (abitset_expandable_enabled
      (abitset_expandable_set (abitset_expandable_set abitset_expandable_init 9) 5) 786432000
        = false) ∧
    (abitset_expandable_enabled
      (abitset_expandable_set (abitset_expandable_set abitset_expandable_init 9) 5) 262144
        = false) ∧
    (abitset_expandable_enabled
      (abitset_expandable_set (abitset_expandable_set abitset_expandable_init 9) 5) 5 = true
      ↔ Nat.testBit (pageWord
          (abitset_expandable_set (abitset_expandable_set abitset_expandable_init 9) 5) 0 0)
          5) := by
  refine ⟨(claim_c6_enabled_spec _ 20).1 (by decide),
    (claim_c6_enabled_spec _ 786432000).2.1 (by decide),
    (claim_c6_enabled_spec _ 262144).2.2.1 (by decide), ?_⟩
  have hx := (claim_c6_enabled_spec
    (abitset_expandable_set (abitset_expandable_set abitset_expandable_init 9) 5) 5).2.2.2
    (by decide) (by decide) (by decide)
  norm_num at hx
  rw [hx]

/-- Claim C7 (confirmed): expand — and hence set and unset, which call it —
updates `max_bit` to `max(max_bit, id)`, so over any sequence of set/unset
calls `max_bit` is monotonically non-decreasing. -/
theorem claim_c7_max_bit_monotone :
    (∀ (h : abitset_expandable_s) (id : Nat),
        (abitset_expandable_expand h id).max_bit = max h.max_bit id) ∧
    (∀ (h : abitset_expandable_s) (id : Nat),
        (abitset_expandable_set h id).max_bit = max h.max_bit id) ∧
    (∀ (h : abitset_expandable_s) (id : Nat),
        (abitset_expandable_unset h id).max_bit = max h.max_bit id) ∧
    (∀ (ops : List BitOp) (h : abitset_expandable_s),
        h.max_bit ≤ (ops.foldl applyOp h).max_bit) := by
  refine ⟨expand_max_bit, ?_, ?_, ?_⟩
  · intro h id
    rw [(set_fields h id).1, expand_max_bit]
  · intro h id
    rw [(unset_fields h id).1, expand_max_bit]
  · intro ops
    induction ops with
    | nil => intro h; exact Nat.le_refl _
    | cons op ops ih =>
        intro h
        rw [List.foldl_cons]
        exact Nat.le_trans
          (by rw [applyOp_max_bit]; exact Nat.le_max_left _ _)
          (ih (applyOp h op))

/-- Claim C8 (amended): for every page index up to 16382 (ids below
`16383 * 2^18`), expand — and set, unset and load pre-sizing through it —
stores the exact value `(page_index + 1) * 2^18` in `size` whenever it
exceeds the current `size`.  At page index 16383 (the maximum reachable from
a 32-bit id) the 32-bit product `(16383 + 1) << 18` wraps to 0 and `size` is
left unchanged, so the claim's "every page index reachable from a 32-bit id"
is cut back to indices below 16383. -/
theorem claim_c8_size_update :
    (∀ (h : abitset_expandable_s) (id : Nat), id >>> 18 < 16383 →
      h.size < ((id >>> 18) + 1) * 262144 →
      (abitset_expandable_expand h id).size = ((id >>> 18) + 1) * 262144) ∧
    (∀ (h : abitset_expandable_s) (id : Nat), id >>> 18 < 16383 →
      h.size < ((id >>> 18) + 1) * 262144 →
      (abitset_expandable_set h id).size = ((id >>> 18) + 1) * 262144) ∧
    (∀ (h : abitset_expandable_s) (id : Nat), id >>> 18 < 16383 →
      h.size < ((id >>> 18) + 1) * 262144 →
      (abitset_expandable_unset h id).size = ((id >>> 18) + 1) * 262144) ∧
    (∀ (r : List Nat) (s : Nat), 1 ≤ s → s < U32 → (s - 1) >>> 18 < 16383 →
      (abitset_expandable_load r s).size = (((s - 1) >>> 18) + 1) * 262144) := by
  refine ⟨size_update_expand, ?_, ?_, ?_⟩
  · intro h id h3 h2
    rw [(set_fields h id).2.2]
    exact size_update_expand h id h3 h2
  · intro h id h3 h2
    rw [(unset_fields h id).2.2]
    exact size_update_expand h id h3 h2
  · intro r s hs1 hs2 h3
    rw [load_size_field]
    have hsm : (s + U32 - 1) % U32 = s - 1 := by
      rw [U32_eq] at hs2 ⊢
      omega
    rw [hsm]
    have hz : abitset_expandable_init.size = 0 := rfl
    exact size_update_expand abitset_expandable_init (s - 1) h3 (by rw [hz]; omega)

/-- Witness for C8: concrete instances of all four parts, each with its
hypotheses discharged (`5 >> 18 = 0 < 16383`, previous size 0). -/
theorem claim_c8_witness :
    (abitset_expandable_expand abitset_expandable_init 5).size = 262144 ∧
    (abitset_expandable_set abitset_expandable_init 5).size = 262144 ∧
    (abitset_expandable_unset abitset_expandable_init 5).size = 262144 ∧
    (abitset_expandable_load [] 64).size = 262144 :=
  ⟨(claim_c8_size_update.1 abitset_expandable_init 5 (by decide) (by decide)).trans (by decide),
   (claim_c8_size_update.2.1 abitset_expandable_init 5 (by decide) (by decide)).trans (by decide),
   (claim_c8_size_update.2.2.1 abitset_expandable_init 5 (by decide) (by decide)).trans (by decide),
   (claim_c8_size_update.2.2.2 [] 64 (by decide) (by decide) (by decide)).trans (by decide)⟩

/-- Counterexample for C8 as stated: for id `16383 * 2^18 = 4294705152` (page
index 16383, reachable from a 32-bit id) the exact value
`(page_index + 1) * 2^18 = 2^32` exceeds the previous size 0, yet after
`set` the stored `size` is 0, not the exact value: the 32-bit shift wrapped. -/
theorem claim_c8_counterexample :
    (abitset_expandable_set abitset_expandable_init 4294705152).size = 0 ∧
    ((4294705152 >>> 18) + 1) * 262144 = 4294967296 ∧
    (abitset_expandable_set abitset_expandable_init 4294705152).size ≠
      ((4294705152 >>> 18) + 1) * 262144 := by decide

/-- Claim C9 (amended): on a well-formed handle, `unset(h, id)` performs the
same expansion as `set(h, id)`: it raises `max_bit` to `max(max_bit, id)`,
grows the directory past page `id >> 18`, allocates the (zero-filled) target
page even when absent — so even when the cleared bit was never set — and
leaves `max_bit`, `page_count`, `size` and the allocated-page pattern
identical to `set`'s.  The parenthetical `logical_size ≥ id + 1` additionally
needs `id < 2^32 - 1` and `max_bit < 2^32 - 1`: at id `2^32 - 1` the 32-bit
`max_bit + 1` wraps to 0. -/
theorem claim_c9_unset_expands (h : abitset_expandable_s) (id : Nat)
    (hWF : WF h) (h1 : id < U32 - 1) (h2 : h.max_bit < U32 - 1) :
    (abitset_expandable_unset h id).max_bit = max h.max_bit id ∧
    id < abitset_expandable_size (abitset_expandable_unset h id) ∧
    id >>> 18 < (abitset_expandable_unset h id).page_count ∧
    ((abitset_expandable_unset h id).pages (id >>> 18)).isSome = true ∧
    (abitset_expandable_unset h id).max_bit = (abitset_expandable_set h id).max_bit ∧
    (abitset_expandable_unset h id).page_count = (abitset_expandable_set h id).page_count ∧
    (abitset_expandable_unset h id).size = (abitset_expandable_set h id).size ∧
    (∀ p, ((abitset_expandable_unset h id).pages p).isSome
        = ((abitset_expandable_set h id).pages p).isSome) ∧
    ((h.pages (id >>> 18)).isSome = false →
      ∀ o, pageWord (abitset_expandable_unset h id) (id >>> 18) o = 0) := by
  have hpos : 1 ≤ h.page_count :=
    Nat.le_trans (by norm_num [INITIAL_PAGES]) hWF.pc_init
  refine ⟨?_, unset_size_fn h id h1 h2, ?_, ?_, ?_, ?_, ?_, ?_, ?_⟩
  · rw [(unset_fields h id).1, expand_max_bit]
  · rw [(unset_fields h id).2.1]
    exact expand_page_count_gt h id hpos
  · rw [unset_pages h id hWF.pages_bound (id >>> 18), if_pos rfl]
    rfl
  · rw [(unset_fields h id).1, (set_fields h id).1]
  · rw [(unset_fields h id).2.1, (set_fields h id).2.1]
  · rw [(unset_fields h id).2.2, (set_fields h id).2.2]
  · intro p
    rw [unset_pages h id hWF.pages_bound p, set_pages h id hWF.pages_bound p]
    by_cases hp : p = id >>> 18
    · rw [if_pos hp, if_pos hp]
      rfl
    · rw [if_neg hp, if_neg hp]
  · intro hnone o
    have hn : h.pages (id >>> 18) = none := by
      cases hq : h.pages (id >>> 18) with
      | none => rfl
      | some pg => rw [hq] at hnone; simp at hnone
    unfold pageWord
    rw [unset_pages h id hWF.pages_bound (id >>> 18), if_pos rfl]
    simp [hn]

/-- Witness for C9: on a fresh handle (well formed, `max_bit = 0`) and id 5,
unset raises `max_bit` to 5, makes the logical size 6, keeps page 0 inside
the directory, allocates page 0, matches `set`'s expansion, and the freshly
allocated page is all zero (sampled at word 7). -/
theorem claim_c9_witness :
    (abitset_expandable_unset abitset_expandable_init 5).max_bit
      = max abitset_expandable_init.max_bit 5 ∧
    5 < abitset_expandable_size (abitset_expandable_unset abitset_expandable_init 5) ∧
    5 >>> 18 < (abitset_expandable_unset abitset_expandable_init 5).page_count ∧
    ((abitset_expandable_unset abitset_expandable_init 5).pages (5 >>> 18)).isSome = true ∧
    (abitset_expandable_unset abitset_expandable_init 5).page_count
      = (abitset_expandable_set abitset_expandable_init 5).page_count ∧
    ((abitset_expandable_unset abitset_expandable_init 5).pages 0).isSome
      = ((abitset_expandable_set abitset_expandable_init 5).pages 0).isSome ∧
    pageWord (abitset_expandable_unset abitset_expandable_init 5) (5 >>> 18) 7 = 0 := by
  have hc := claim_c9_unset_expands abitset_expandable_init 5 wf_init (by decide) (by decide)
  exact ⟨hc.1, hc.2.1, hc.2.2.1, hc.2.2.2.1, hc.2.2.2.2.2.1,
    hc.2.2.2.2.2.2.2.1 0, hc.2.2.2.2.2.2.2.2 (by decide) 7⟩

/-- Counterexample for C9's parenthetical as stated: `unset` on a fresh
handle at id `2^32 - 1` raises `max_bit` to `2^32 - 1`, but the logical size
`max_bit + 1` computed in 32-bit arithmetic wraps to 0, so it does not become
`id + 1 = 2^32`. -/
theorem claim_c9_counterexample :
    (abitset_expandable_unset abitset_expandable_init 4294967295).max_bit = 4294967295 ∧
    abitset_expandable_size (abitset_expandable_unset abitset_expandable_init 4294967295)
      = 0 := by decide

/-- Claim C10 (confirmed): `load` with declared bit count 0 computes
`size - 1` in 32-bit arithmetic, underflowing to `2^32 - 1`: the resulting
handle has `max_bit = 2^32 - 1`, its logical size `max_bit + 1` wraps to 0,
and the expand call for id `2^32 - 1` doubles the directory to 16384 entries
and allocates the page at index 16383.  (The word loop is empty: the computed
entry count `(0 + 63) >> 6` is 0, so the input array is never read.) -/
theorem claim_c10_load_zero (r : List Nat) :
    (abitset_expandable_load r 0).max_bit = 4294967295 ∧
    abitset_expandable_size (abitset_expandable_load r 0) = 0 ∧
    (abitset_expandable_load r 0).page_count = 16384 ∧
    ((abitset_expandable_load r 0).pages 16383).isSome = true := by
  refine ⟨?_, ?_, ?_, ?_⟩
  · rw [load_max_bit]
    decide
  · show ((abitset_expandable_load r 0).max_bit + 1) % U32 = 0
    rw [load_max_bit]
    decide
  · rw [load_page_count]
    decide
  · have hp : (abitset_expandable_load r 0).pages 16383
        = (abitset_expandable_expand abitset_expandable_init
            ((0 + U32 - 1) % U32)).pages 16383 := rfl
    rw [hp]
    decide
